import Mathlib

/-!
Shallow embedding of `src/multiscanner/analytics/ssdeep_analytics.py`
(class `SSDeepAnalytic`, methods `ssdeep_compare` and `ssdeep_group`).

The Elasticsearch index is modelled as a list of documents in store order.
Each document carries the fields the analytic reads (`_id`, `SHA256`, and the
`ssdeep` sub-document).  ES `update` with a `doc` body performs a recursive
merge of the given partial object into the stored one, so merging
`{'ssdeep': {'matches': {k: v}}}` upserts key `k` in the `matches` mapping and
leaves every other field alone; that is modelled by `dictInsert`.

Tokenized text fields (`ssdeep.chunk`, `ssdeep.double_chunk`) are modelled by
their token lists: an ES `match` query succeeds iff some query token occurs
among the field's tokens.  Scroll paging is modelled by chunking the list of
documents matching the query into pages (a scroll freezes a snapshot, so the
pages are computed once, at search time); scrolling past the end yields an
empty page, as ES does.
-/

namespace Multiscanner

/-- The `ssdeep` sub-document of a sample record. -/
structure SSDeepMeta where
  ssdeep_hash : String
  chunksize : Nat
  chunk : List String
  double_chunk : List String
  analyzed : Bool
  «matches» : List (String × Nat)
deriving DecidableEq, Repr

/-- One document of the index: ES `_id`, the `SHA256` field and the
`ssdeep` sub-document. -/
structure Doc where
  docId : String
  sha256 : String
  ssdeep : SSDeepMeta
deriving DecidableEq, Repr

/-- Python-dict / ES-merge upsert on an association list: replace the value at
an existing key in place, otherwise append the binding at the end. -/
def dictInsert {β : Type} : List (String × β) → String → β → List (String × β)
  | [], k, v => [(k, v)]
  | (k0, v0) :: rest, k, v =>
      if k0 = k then (k0, v) :: rest else (k0, v0) :: dictInsert rest k v

/-- Key lookup on an association list (Python `d.get(k)` / `k in d`). -/
def dictGet {β : Type} : List (String × β) → String → Option β
  | [], _ => none
  | (k0, v0) :: rest, k => if k0 = k then some v0 else dictGet rest k

/-- ES `match` query on a tokenized text field: the analyzed query text
matches the field iff they share at least one token. -/
def tokenMatch (query field : List String) : Bool :=
  query.any (fun t => field.contains t)

/-- The blocking query built for a new sample `s` (the `opti_query` of
`ssdeep_compare`): candidate `chunksize` must lie in
`[chunksize, chunksize / 2, chunksize * 2]` (Python `/` is exact division, so
an integer field value equals `chunksize / 2` iff its double is `chunksize`),
the candidate's `chunk` or `double_chunk` must match (`minimum_should_match`
1), and `must_not` excludes documents whose `SHA256` matches `s`'s. -/
def optiFilter (s d : Doc) : Bool :=
  (d.ssdeep.chunksize == s.ssdeep.chunksize
    || 2 * d.ssdeep.chunksize == s.ssdeep.chunksize
    || d.ssdeep.chunksize == 2 * s.ssdeep.chunksize)
  && (tokenMatch s.ssdeep.chunk d.ssdeep.chunk
    || tokenMatch s.ssdeep.double_chunk d.ssdeep.double_chunk)
  && (d.sha256 != s.sha256)

/-- Chunk a query's result list into scroll pages of `size` hits (structural
recursion on explicit fuel; `xs.length` steps always suffice because every
page consumes at least its first element). -/
def chunkPagesFuel {α : Type} : Nat → Nat → List α → List (List α)
  | 0, _, _ => []
  | _ + 1, _, [] => []
  | fuel + 1, size, x :: rest =>
      (x :: rest.take (size - 1)) :: chunkPagesFuel fuel size (rest.drop (size - 1))

/-- The scroll pages of a result list, with page size `size`. -/
def chunkPages {α : Type} (size : Nat) (xs : List α) : List (List α) :=
  chunkPagesFuel xs.length size xs

/-- The hits actually visited by the inner candidate loop of
`ssdeep_compare`.  In the source, the scroll advance sits INSIDE the
`for opti_hit in opti_page['hits']['hits']` loop: the `for` iterates over the
page fetched at loop entry, but `opti_page` is re-assigned by a scroll after
EVERY hit, so after a page of `n` hits the cursor has advanced `n` pages, and
the `while` resumes from whatever page the last scroll returned.  `p` is the
current page, `rest` the pages the cursor has not yet served (a scroll past
the end returns an empty page).  Structural recursion on fuel;
`rest.length + 1` steps suffice (`scrollScanFuel_fuel_irrel` below shows any
larger fuel gives the same hits). -/
def scrollScanFuel {α : Type} : Nat → List α → List (List α) → List α
  | 0, _, _ => []
  | _ + 1, [], _ => []
  | fuel + 1, a :: p, rest =>
      (a :: p) ++ scrollScanFuel fuel ((rest.drop p.length).headD []) (rest.drop (p.length + 1))

/-- All candidate hits the buggy scroll loop visits, given the pages of the
candidate query. -/
def scannedCandidates (pages : List (List Doc)) : List Doc :=
  scrollScanFuel (pages.length + 1) (pages.headD []) pages.tail

/-- Apply a partial update to every document whose `_id` is `i`
(`es.update(index, doc_type, id, body)`). -/
def modifyDoc (st : List Doc) (i : String) (f : SSDeepMeta → SSDeepMeta) : List Doc :=
  st.map (fun d => if d.docId = i then { d with ssdeep := f d.ssdeep } else d)

/-- The update `{'doc': {'ssdeep': {'matches': {k: v}}}}` on document `i`. -/
def updateMatches (st : List Doc) (i : String) (k : String) (v : Nat) : List Doc :=
  modifyDoc st i (fun m => { m with «matches» := dictInsert m.«matches» k v })

/-- The update `{'doc': {'ssdeep': {'analyzed': 'true'}}}` on document `i`. -/
def setAnalyzed (st : List Doc) (i : String) : List Doc :=
  modifyDoc st i (fun m => { m with analyzed := true })

/-- Body of the inner candidate loop for new sample `s` and candidate hit `c`:
compute `result = ssdeep.compare(s.hash, c.hash)`, then write
`s.matches[c.SHA256] = result` (first `es.update`, on `new_ssdeep_hit._id`)
and `c.matches[s.SHA256] = result` (second `es.update`, on `opti_hit._id`). -/
def processHit (score : String → String → Nat) (s c : Doc) (st : List Doc) : List Doc :=
  let result := score s.ssdeep.ssdeep_hash c.ssdeep.ssdeep_hash
  updateMatches (updateMatches st s.docId c.sha256 result) c.docId s.sha256 result

/-- Run the candidate-loop body over the visited hits, left to right. -/
def runHits (score : String → String → Nat) (s : Doc) :
    List Doc → List Doc → List Doc
  | [], st => st
  | c :: rest, st => runHits score s rest (processHit score s c st)

/-- Process one new sample: issue the blocking query against the current
store, traverse its pages with the (buggy) scroll loop, score and write each
visited candidate, then set `ssdeep.analyzed = true` on the sample.  Returns
the new store and, for the record, the list of comparator invocations
`(new sample, candidate)` performed. -/
def processSample (score : String → String → Nat) (size : Nat) (s : Doc)
    (st : List Doc) : List Doc × List (Doc × Doc) :=
  let cands := scannedCandidates (chunkPages size (st.filter (optiFilter s)))
  (setAnalyzed (runHits score s cands st) s.docId, cands.map (fun c => (s, c)))

/-- The outer loop of `ssdeep_compare` over the snapshot `records_list`. -/
def runSamples (score : String → String → Nat) (size : Nat) :
    List Doc → List Doc → List Doc × List (Doc × Doc)
  | [], st => (st, [])
  | s :: rest, st =>
      let r := processSample score size s st
      let r2 := runSamples score size rest r.1
      (r2.1, r.2 ++ r2.2)

/-- Model of `SSDeepAnalytic.ssdeep_compare`.  `score?` is the ssdeep module: `none`
models `ssdeep is None` (import failed), in which case the method logs and
returns before touching the store.  Otherwise it collects `records_list`, the
pages of all documents with `ssdeep.analyzed == false` (this outer loop
scrolls correctly, so the snapshot is the whole result set), and runs the
per-sample work.  `size` is the scroll page size (1000 in the source).
Returns the final store and the list of comparator invocations. -/
def ssdeep_compare (score? : Option (String → String → Nat)) (size : Nat)
    (store : List Doc) : List Doc × List (Doc × Doc) :=
  match score? with
  | none => (store, [])
  | some score =>
      let records_list :=
        (chunkPages size (store.filter (fun d => d.ssdeep.analyzed == false))).flatten
      runSamples score size records_list store

/-- Lookup `records.get(sha256_)` of the grouping loop: the matches mapping recorded
for `sha` (the iterated keys are exactly the dict's keys, so the lookup never
misses; `[]` is a dummy for the impossible miss). -/
def recordsMatches (records : List (String × List (String × Nat))) (sha : String) :
    List (String × Nat) :=
  (dictGet records sha).getD []

/-- The inner `for i in range(len(groups))` scan of `ssdeep_group` for one
sample `sha` with match map `matches`: if `sha` is already in the group, note
membership and move on; otherwise add `sha` to the group iff every current
member is a key of `matches`; scanning never stops early, so one sample can be
appended to several groups.  Returns the updated groups and the final
`in_group` flag. -/
def scanGroups («matches» : List (String × Nat)) (sha : String) :
    List (List String) → List (List String) × Bool
  | [] => ([], false)
  | g :: gs =>
      let rest := scanGroups «matches» sha gs
      if sha ∈ g then (g :: rest.1, true)
      else if g.all (fun m => (dictGet «matches» m).isSome) then
        ((g ++ [sha]) :: rest.1, true)
      else (g :: rest.1, rest.2)

/-- The outer `for sha256_, matches_dict in records.items()` loop of
`ssdeep_group`: scan the existing groups; if the sample joined (or already
belonged to) none, start a new singleton group. -/
def groupFold (records : List (String × List (String × Nat))) :
    List (String × List (String × Nat)) → List (List String) → List (List String)
  | [], groups => groups
  | (sha, _) :: rest, groups =>
      let r := scanGroups (recordsMatches records sha) sha groups
      groupFold records rest (if r.2 then r.1 else r.1 ++ [[sha]])

/-- The grouping pass of `ssdeep_group` on the fetched `records` dict
(iterated in insertion order). -/
def ssdeep_group_core (records : List (String × List (String × Nat))) :
    List (List String) :=
  groupFold records records []

/-- The `records` dict built by `ssdeep_group`: every document matching the
`exists ssdeep.matches` query (an empty object indexes no value, so only
documents with a non-empty match map match), keyed by `SHA256` with Python
dict insertion semantics. -/
def groupRecords (store : List Doc) : List (String × List (String × Nat)) :=
  (store.filter (fun d => !d.ssdeep.«matches».isEmpty)).foldl
    (fun acc d => dictInsert acc d.sha256 d.ssdeep.«matches») []

/-- Model of `SSDeepAnalytic.ssdeep_group`. -/
def ssdeep_group (store : List Doc) : List (List String) :=
  ssdeep_group_core (groupRecords store)

/-- The match entry stored for key `k` on the (first) document with `_id = i`,
read back from the store. -/
def getMatch (st : List Doc) (i : String) (k : String) : Option Nat :=
  match st.find? (fun d => d.docId == i) with
  | none => none
  | some d => dictGet d.ssdeep.«matches» k

/-- The immutable identity of a document: `_id`, `SHA256` and the raw ssdeep
hash.  No update issued by the analytic ever changes these fields. -/
def keyOf (d : Doc) : String × String × String :=
  (d.docId, d.sha256, d.ssdeep.ssdeep_hash)

/-- The identities of all documents of a store, in store order. -/
def sig (st : List Doc) : List (String × String × String) :=
  st.map keyOf

/-- Some document of the store has `_id = i`. -/
def hasId (st : List Doc) (i : String) : Prop :=
  ∃ d ∈ st, d.docId = i

/-- Both sides of the match relation for the pair `p` are present with the
identical value `v`: `p.1.matches[p.2.SHA256] = v` and
`p.2.matches[p.1.SHA256] = v`, read back from the store by `_id`. -/
def PairHolds (st : List Doc) (p : Doc × Doc) (v : Nat) : Prop :=
  getMatch st p.1.docId p.2.sha256 = some v ∧
  getMatch st p.2.docId p.1.sha256 = some v

/-- Two ordered pairs name the same unordered pair of document identities. -/
def sameUnordered (p q : Doc × Doc) : Prop :=
  (keyOf p.1 = keyOf q.1 ∧ keyOf p.2 = keyOf q.2) ∨
  (keyOf p.1 = keyOf q.2 ∧ keyOf p.2 = keyOf q.1)

/-- A symmetric pair annotated with a property `Q` of its stored value. -/
def TraceInv (st : List Doc) (Q : Doc × Doc → Nat → Prop) (p : Doc × Doc) : Prop :=
  ∃ v, PairHolds st p v ∧ Q p v

/-- No document of the store lists its own `SHA256` in its match map. -/
def NoSelf (st : List Doc) : Prop :=
  ∀ d ∈ st, dictGet d.ssdeep.«matches» d.sha256 = none

/- ### Concrete fixtures -/

/-- Build an ssdeep sub-document with an empty match map. -/
def mkMeta (h : String) (cs : Nat) (ck dck : List String) (an : Bool) : SSDeepMeta :=
  { ssdeep_hash := h, chunksize := cs, chunk := ck, double_chunk := dck,
    analyzed := an, «matches» := [] }

/-- An unanalyzed sample whose blocking query matches the three candidates
below. -/
def docS : Doc := { docId := "i0", sha256 := "S", ssdeep := mkMeta "hS" 3 ["t"] ["u"] false }

def docC1 : Doc := { docId := "i1", sha256 := "c1", ssdeep := mkMeta "h1" 3 ["t"] ["x"] true }

def docC2 : Doc := { docId := "i2", sha256 := "c2", ssdeep := mkMeta "h2" 6 ["t"] ["x"] true }

def docC3 : Doc := { docId := "i3", sha256 := "c3", ssdeep := mkMeta "h3" 3 ["t"] ["x"] true }

/-- A store on which the blocking query for `docS` returns three candidates:
with a scroll page size of 2 the candidate cursor has two pages and the buggy
scroll loop never visits the second one. -/
def storeSkip : List Doc := [docS, docC1, docC2, docC3]

/-- An unanalyzed sample matched by exactly one candidate (`docB`). -/
def docA : Doc := { docId := "ia", sha256 := "A", ssdeep := mkMeta "ha" 3 ["t"] ["u"] false }

def docB : Doc := { docId := "ib", sha256 := "B", ssdeep := mkMeta "hb" 6 ["t"] ["x"] true }

/-- A two-document store producing exactly one comparator invocation
`(docA, docB)` at the source's page size of 1000. -/
def storePair : List Doc := [docA, docB]

/-- A document with a given `SHA256` and match map (the other fields do not
matter to `ssdeep_group`). -/
def mkGroupDoc (sha : String) (ms : List (String × Nat)) : Doc :=
  { docId := sha, sha256 := sha,
    ssdeep := { ssdeep_hash := sha, chunksize := 3, chunk := [], double_chunk := [],
                analyzed := true, «matches» := ms } }

/-- The clustering fixture of the spec: records
`{A:{B:1}, B:{A:1,C:1}, C:{B:1}}` in store order A, B, C. -/
def storeGroupFix : List Doc :=
  [mkGroupDoc "A" [("B", 1)], mkGroupDoc "B" [("A", 1), ("C", 1)], mkGroupDoc "C" [("B", 1)]]

/-- A store on which `ssdeep_group` appends the same id to two groups:
records `{X:{Q:1}, Y:{Q:1}, Z:{X:1,Y:1}}` in order X, Y, Z put `Z` both into
X's group and into Y's group. -/
def storeGroupDup : List Doc :=
  [mkGroupDoc "X" [("Q", 1)], mkGroupDoc "Y" [("Q", 1)], mkGroupDoc "Z" [("X", 1), ("Y", 1)]]

/- ### Association-list lemmas -/

theorem dictGet_insert_self {β : Type} (m : List (String × β)) (k : String) (v : β) :
    dictGet (dictInsert m k v) k = some v := by
  induction m with
  | nil => simp [dictInsert, dictGet]
  | cons kv rest ih =>
    obtain ⟨k0, v0⟩ := kv
    by_cases h : k0 = k <;> simp [dictInsert, dictGet, h, ih]

theorem dictGet_insert_ne {β : Type} (m : List (String × β)) (k k' : String) (v : β)
    (h : k' ≠ k) : dictGet (dictInsert m k v) k' = dictGet m k' := by
  have hk : k ≠ k' := Ne.symm h
  induction m with
  | nil => simp [dictInsert, dictGet, hk]
  | cons kv rest ih =>
    obtain ⟨k0, v0⟩ := kv
    by_cases h0 : k0 = k
    · subst h0
      simp [dictInsert, dictGet, hk]
    · simp [dictInsert, dictGet, h0, ih]

/- ### Store-update lemmas -/

theorem find?_modifyDoc (st : List Doc) (j : String) (f : SSDeepMeta → SSDeepMeta)
    (i : String) :
    (modifyDoc st j f).find? (fun d => d.docId == i) =
      ((st.find? (fun d => d.docId == i)).map
        (fun d => if d.docId = j then { d with ssdeep := f d.ssdeep } else d)) := by
  unfold modifyDoc
  rw [List.find?_map]
  have hp : ((fun d => d.docId == i) ∘
      (fun d => if d.docId = j then { d with ssdeep := f d.ssdeep } else d)) =
      (fun d : Doc => d.docId == i) := by
    funext d
    by_cases h : d.docId = j <;> simp [Function.comp, h]
  rw [hp]

theorem sig_modifyDoc (st : List Doc) (j : String) (f : SSDeepMeta → SSDeepMeta)
    (hf : ∀ m, (f m).ssdeep_hash = m.ssdeep_hash) :
    sig (modifyDoc st j f) = sig st := by
  unfold sig modifyDoc
  rw [List.map_map]
  congr 1
  funext d
  by_cases h : d.docId = j <;> simp [Function.comp, keyOf, h, hf]

theorem hasId_modifyDoc (st : List Doc) (j : String) (f : SSDeepMeta → SSDeepMeta)
    (i : String) (h : hasId st i) : hasId (modifyDoc st j f) i := by
  obtain ⟨d, hd, hdi⟩ := h
  by_cases hj : d.docId = j
  · exact ⟨{ d with ssdeep := f d.ssdeep }, List.mem_map.2 ⟨d, hd, by simp [hj]⟩, hdi⟩
  · exact ⟨d, List.mem_map.2 ⟨d, hd, by simp [hj]⟩, hdi⟩

theorem getMatch_modifyDoc_ne_id (st : List Doc) (j : String) (f : SSDeepMeta → SSDeepMeta)
    (i k : String) (h : i ≠ j) :
    getMatch (modifyDoc st j f) i k = getMatch st i k := by
  unfold getMatch
  rw [find?_modifyDoc]
  cases hf : st.find? (fun d => d.docId == i) with
  | none => rfl
  | some d =>
    have hdi : d.docId = i := by
      have := List.find?_some hf
      simpa using this
    simp [hdi, h]

theorem getMatch_update_ne_id (st : List Doc) (j k : String) (v : Nat)
    (i k' : String) (h : i ≠ j) :
    getMatch (updateMatches st j k v) i k' = getMatch st i k' :=
  getMatch_modifyDoc_ne_id _ _ _ _ _ h

theorem getMatch_update_ne_key (st : List Doc) (j k : String) (v : Nat)
    (i k' : String) (h : k' ≠ k) :
    getMatch (updateMatches st j k v) i k' = getMatch st i k' := by
  unfold updateMatches getMatch
  rw [find?_modifyDoc]
  cases hf : st.find? (fun d => d.docId == i) with
  | none => rfl
  | some d =>
    by_cases hdj : d.docId = j
    · simp [hdj, dictGet_insert_ne _ _ _ _ h]
    · simp [hdj]

theorem getMatch_update_self (st : List Doc) (j k : String) (v : Nat)
    (h : hasId st j) : getMatch (updateMatches st j k v) j k = some v := by
  unfold updateMatches getMatch
  rw [find?_modifyDoc]
  cases hf : st.find? (fun d => d.docId == j) with
  | none =>
    obtain ⟨d, hd, hdj⟩ := h
    have : (st.find? (fun d => d.docId == j)).isSome := by
      rw [List.find?_isSome]
      exact ⟨d, hd, by simpa using hdj⟩
    rw [hf] at this
    simp at this
  | some d =>
    have hdj : d.docId = j := by
      have := List.find?_some hf
      simpa using this
    simp [hdj, dictGet_insert_self]

theorem getMatch_setAnalyzed (st : List Doc) (j i k : String) :
    getMatch (setAnalyzed st j) i k = getMatch st i k := by
  unfold setAnalyzed getMatch
  rw [find?_modifyDoc]
  cases hf : st.find? (fun d => d.docId == i) with
  | none => rfl
  | some d => by_cases hdj : d.docId = j <;> simp [hdj]

theorem sig_updateMatches (st : List Doc) (j k : String) (v : Nat) :
    sig (updateMatches st j k v) = sig st :=
  sig_modifyDoc _ _ _ (fun _ => rfl)

theorem sig_setAnalyzed (st : List Doc) (j : String) :
    sig (setAnalyzed st j) = sig st :=
  sig_modifyDoc _ _ _ (fun _ => rfl)

theorem sig_processHit (score : String → String → Nat) (s c : Doc) (st : List Doc) :
    sig (processHit score s c st) = sig st := by
  unfold processHit
  rw [sig_updateMatches, sig_updateMatches]

theorem hasId_of_keyOf_mem_sig (st : List Doc) (d : Doc)
    (h : keyOf d ∈ sig st) : hasId st d.docId := by
  obtain ⟨d', hd', hk⟩ := List.mem_map.1 h
  exact ⟨d', hd', congrArg (fun t => t.1) hk⟩

theorem hasId_updateMatches (st : List Doc) (j k : String) (v : Nat) (i : String)
    (h : hasId st i) : hasId (updateMatches st j k v) i :=
  hasId_modifyDoc _ _ _ _ h

/- ### Identity (pairing) lemmas: in a store with no duplicate `_id` and no
duplicate `SHA256`, each of the two identifiers determines the whole
document identity. -/

theorem keyOf_eq_of_docId_eq (store : List Doc) (hid : (store.map Doc.docId).Nodup)
    {a b : Doc} (ha : keyOf a ∈ sig store) (hb : keyOf b ∈ sig store)
    (h : a.docId = b.docId) : keyOf a = keyOf b := by
  have hmap : ((sig store).map (fun t => t.1)) = store.map Doc.docId := by
    unfold sig
    rw [List.map_map]
    rfl
  have hnd : ((sig store).map (fun t : String × String × String => t.1)).Nodup := by
    rw [hmap]
    exact hid
  exact List.inj_on_of_nodup_map hnd ha hb h

theorem keyOf_eq_of_sha_eq (store : List Doc) (hsha : (store.map Doc.sha256).Nodup)
    {a b : Doc} (ha : keyOf a ∈ sig store) (hb : keyOf b ∈ sig store)
    (h : a.sha256 = b.sha256) : keyOf a = keyOf b := by
  have hmap : ((sig store).map (fun t => t.2.1)) = store.map Doc.sha256 := by
    unfold sig
    rw [List.map_map]
    rfl
  have hnd : ((sig store).map (fun t : String × String × String => t.2.1)).Nodup := by
    rw [hmap]
    exact hsha
  exact List.inj_on_of_nodup_map hnd ha hb h

theorem docId_eq_of_keyOf_eq {a b : Doc} (h : keyOf a = keyOf b) : a.docId = b.docId :=
  congrArg (fun t => t.1) h

theorem sha_eq_of_keyOf_eq {a b : Doc} (h : keyOf a = keyOf b) : a.sha256 = b.sha256 :=
  congrArg (fun t => t.2.1) h

theorem hash_eq_of_keyOf_eq {a b : Doc} (h : keyOf a = keyOf b) :
    a.ssdeep.ssdeep_hash = b.ssdeep.ssdeep_hash :=
  congrArg (fun t => t.2.2) h

theorem keyOf_mem_sig_of_mem {st : List Doc} {d : Doc} (h : d ∈ st) :
    keyOf d ∈ sig st :=
  List.mem_map.2 ⟨d, h, rfl⟩

/- ### Paging lemmas -/

theorem chunkPagesFuel_flatten {α : Type} :
    ∀ (fuel size : Nat) (xs : List α), xs.length ≤ fuel →
      (chunkPagesFuel fuel size xs).flatten = xs := by
  intro fuel
  induction fuel with
  | zero =>
    intro size xs h
    have : xs = [] := List.eq_nil_of_length_eq_zero (Nat.le_zero.1 h)
    subst this
    rfl
  | succ n ih =>
    intro size xs h
    cases xs with
    | nil => rfl
    | cons x rest =>
      have hlen : (rest.drop (size - 1)).length ≤ n := by
        have := List.length_drop (size - 1) rest
        simp only [List.length_cons] at h
        omega
      simp only [chunkPagesFuel, List.flatten_cons, ih size _ hlen, List.cons_append,
        List.take_append_drop]

theorem chunkPages_flatten {α : Type} (size : Nat) (xs : List α) :
    (chunkPages size xs).flatten = xs :=
  chunkPagesFuel_flatten _ _ _ (Nat.le_refl _)

theorem scrollScanFuel_nil {α : Type} (fuel : Nat) (rest : List (List α)) :
    scrollScanFuel fuel [] rest = [] := by
  cases fuel <;> rfl

/-- Fuel irrelevance: any fuel of at least `rest.length + 1` steps computes
the full buggy traversal, so the fuel chosen in `scannedCandidates` is not an
artifact. -/
theorem scrollScanFuel_fuel_irrel {α : Type} :
    ∀ (f1 f2 : Nat) (p : List α) (rest : List (List α)),
      rest.length + 1 ≤ f1 → rest.length + 1 ≤ f2 →
      scrollScanFuel f1 p rest = scrollScanFuel f2 p rest := by
  intro f1
  induction f1 with
  | zero => intro f2 p rest h1 _; omega
  | succ n ih =>
    intro f2 p rest h1 h2
    cases f2 with
    | zero => omega
    | succ m =>
      cases p with
      | nil => rfl
      | cons a q =>
        simp only [scrollScanFuel]
        cases hr : rest with
        | nil =>
          simp [List.drop_nil, scrollScanFuel_nil]
        | cons r rs =>
          rw [← hr]
          have hlen : (rest.drop (q.length + 1)).length + 1 ≤ n ∧
              (rest.drop (q.length + 1)).length + 1 ≤ m := by
            have := List.length_drop (q.length + 1) rest
            have hpos : 1 ≤ rest.length := by rw [hr]; simp
            omega
          rw [ih m _ _ hlen.1 hlen.2]

theorem scrollScanFuel_subset {α : Type} :
    ∀ (fuel : Nat) (p : List α) (rest : List (List α)),
      scrollScanFuel fuel p rest ⊆ p ++ rest.flatten := by
  intro fuel
  induction fuel with
  | zero => intro p rest; simp [scrollScanFuel]
  | succ n ih =>
    intro p rest
    cases p with
    | nil => simp [scrollScanFuel]
    | cons a q =>
      simp only [scrollScanFuel]
      intro x hx
      rcases List.mem_append.1 hx with h | h
      · exact List.mem_append.2 (Or.inl h)
      · have hsub := ih ((rest.drop q.length).headD []) (rest.drop (q.length + 1)) h
        refine List.mem_append.2 (Or.inr ?_)
        have hrest : (rest.drop q.length).headD [] ++ (rest.drop (q.length + 1)).flatten ⊆
            rest.flatten := by
          rw [← List.tail_drop]
          cases hd : rest.drop q.length with
          | nil => simp
          | cons y t =>
            intro z hz
            have : z ∈ (rest.drop q.length).flatten := by
              rw [hd]
              simpa using hz
            obtain ⟨s, hs, hzs⟩ := List.mem_flatten.1 this
            exact List.mem_flatten.2 ⟨s, List.mem_of_mem_drop hs, hzs⟩
        exact hrest hsub

theorem scannedCandidates_subset (pages : List (List Doc)) :
    scannedCandidates pages ⊆ pages.flatten := by
  unfold scannedCandidates
  cases pages with
  | nil => simp [scrollScanFuel_nil]
  | cons p ps =>
    intro x hx
    have := scrollScanFuel_subset (ps.length + 1 + 1) p ps hx
    simpa using this

/-- A visited candidate for sample `s` really came from the current store and
satisfies the blocking query. -/
theorem mem_of_mem_scannedCandidates (s : Doc) (size : Nat) (st : List Doc) (c : Doc)
    (hc : c ∈ scannedCandidates (chunkPages size (st.filter (optiFilter s)))) :
    c ∈ st ∧ optiFilter s c = true := by
  have h1 : c ∈ st.filter (optiFilter s) := by
    have := scannedCandidates_subset _ hc
    rwa [chunkPages_flatten] at this
  exact ⟨List.mem_of_mem_filter h1, List.of_mem_filter h1⟩

theorem sig_runHits (score : String → String → Nat) (s : Doc) :
    ∀ (cands : List Doc) (st : List Doc),
      sig (runHits score s cands st) = sig st := by
  intro cands
  induction cands with
  | nil => intro st; rfl
  | cons c rest ih =>
    intro st
    simp only [runHits]
    rw [ih, sig_processHit]

theorem sig_processSample (score : String → String → Nat) (size : Nat) (s : Doc)
    (st : List Doc) : sig (processSample score size s st).1 = sig st := by
  simp only [processSample]
  rw [sig_setAnalyzed, sig_runHits]

/- ### Which pairs get compared -/

/-- Every comparator invocation `(s, c)` recorded by the outer loop pairs a
sample of `records_list` with a candidate that matched `s`'s blocking query,
drawn from the store as it was when `s` was processed. -/
theorem mem_trace_runSamples (score : String → String → Nat) (size : Nat) :
    ∀ (samples : List Doc) (st : List Doc) (p : Doc × Doc),
      p ∈ (runSamples score size samples st).2 →
      p.1 ∈ samples ∧ optiFilter p.1 p.2 = true ∧ keyOf p.2 ∈ sig st := by
  intro samples
  induction samples with
  | nil => intro st p hp; simp [runSamples] at hp
  | cons s rest ih =>
    intro st p hp
    simp only [runSamples] at hp
    rcases List.mem_append.1 hp with h | h
    · simp only [processSample] at h
      obtain ⟨c, hc, rfl⟩ := List.mem_map.1 h
      obtain ⟨hcst, hcf⟩ := mem_of_mem_scannedCandidates s size st c hc
      exact ⟨List.mem_cons_self s rest, hcf, keyOf_mem_sig_of_mem hcst⟩
    · obtain ⟨h1, h2, h3⟩ := ih _ p h
      refine ⟨List.mem_cons_of_mem s h1, h2, ?_⟩
      rwa [sig_processSample] at h3

/- ### Symmetry of the dual match write -/

theorem PairHolds_setAnalyzed (st : List Doc) (j : String) (p : Doc × Doc) (v : Nat) :
    PairHolds (setAnalyzed st j) p v ↔ PairHolds st p v := by
  unfold PairHolds
  rw [getMatch_setAnalyzed, getMatch_setAnalyzed]

/-- After one candidate-loop body for `(s, c)`, both sides of the pair hold
the comparator result. -/
theorem processHit_establishes (score : String → String → Nat) (s c : Doc)
    (st : List Doc) (hs : hasId st s.docId) (hc : hasId st c.docId) :
    getMatch (processHit score s c st) s.docId c.sha256 =
      some (score s.ssdeep.ssdeep_hash c.ssdeep.ssdeep_hash) ∧
    getMatch (processHit score s c st) c.docId s.sha256 =
      some (score s.ssdeep.ssdeep_hash c.ssdeep.ssdeep_hash) := by
  simp only [processHit]
  constructor
  · by_cases h1 : s.docId = c.docId
    · by_cases h2 : c.sha256 = s.sha256
      · rw [h1, h2]
        exact getMatch_update_self _ _ _ _ (hasId_updateMatches _ _ _ _ _ hc)
      · rw [getMatch_update_ne_key _ _ _ _ _ _ h2]
        exact getMatch_update_self _ _ _ _ hs
    · rw [getMatch_update_ne_id _ _ _ _ _ _ h1]
      exact getMatch_update_self _ _ _ _ hs
  · exact getMatch_update_self _ _ _ _ (hasId_updateMatches _ _ _ _ _ hc)

/-- A match entry addressed by neither of the two writes of a candidate-loop
body is left unchanged. -/
theorem getMatch_processHit_untouched (score : String → String → Nat) (s c : Doc)
    (st : List Doc) (i k : String)
    (h1 : ¬(i = s.docId ∧ k = c.sha256)) (h2 : ¬(i = c.docId ∧ k = s.sha256)) :
    getMatch (processHit score s c st) i k = getMatch st i k := by
  simp only [processHit]
  have step2 : getMatch (updateMatches
        (updateMatches st s.docId c.sha256 (score s.ssdeep.ssdeep_hash c.ssdeep.ssdeep_hash))
        c.docId s.sha256 (score s.ssdeep.ssdeep_hash c.ssdeep.ssdeep_hash)) i k =
      getMatch (updateMatches st s.docId c.sha256
        (score s.ssdeep.ssdeep_hash c.ssdeep.ssdeep_hash)) i k := by
    by_cases hi : i = c.docId
    · exact getMatch_update_ne_key _ _ _ _ _ _ (fun hk => h2 ⟨hi, hk⟩)
    · exact getMatch_update_ne_id _ _ _ _ _ _ hi
  rw [step2]
  by_cases hi : i = s.docId
  · exact getMatch_update_ne_key _ _ _ _ _ _ (fun hk => h1 ⟨hi, hk⟩)
  · exact getMatch_update_ne_id _ _ _ _ _ _ hi

/-- One candidate-loop body either leaves a previously symmetric pair `(a, b)`
untouched, or `(a, b)` is the very pair being scored (in some order), in which
case both of its sides are rewritten with the fresh comparator result.  Needs
a store with unique `_id`s and unique `SHA256`s, so that each of the two
identifiers determines the document. -/
theorem processHit_preserves (store : List Doc)
    (hid : (store.map Doc.docId).Nodup) (hsha : (store.map Doc.sha256).Nodup)
    (score : String → String → Nat) (s c : Doc) (st : List Doc)
    (hsig : sig st = sig store)
    (hks : keyOf s ∈ sig store) (hkc : keyOf c ∈ sig store)
    (a b : Doc) (hpa : keyOf a ∈ sig store) (hpb : keyOf b ∈ sig store)
    (w : Nat) (hw : PairHolds st (a, b) w) :
    PairHolds (processHit score s c st) (a, b) w ∨
      (sameUnordered (a, b) (s, c) ∧
        PairHolds (processHit score s c st) (a, b)
          (score s.ssdeep.ssdeep_hash c.ssdeep.ssdeep_hash)) := by
  by_cases hsame : sameUnordered (a, b) (s, c)
  · right
    refine ⟨hsame, ?_⟩
    have hs' : hasId st s.docId := hasId_of_keyOf_mem_sig st s (by rw [hsig]; exact hks)
    have hc' : hasId st c.docId := hasId_of_keyOf_mem_sig st c (by rw [hsig]; exact hkc)
    have hest := processHit_establishes score s c st hs' hc'
    rcases hsame with ⟨h1, h2⟩ | ⟨h1, h2⟩
    · exact ⟨by rw [docId_eq_of_keyOf_eq h1, sha_eq_of_keyOf_eq h2]; exact hest.1,
        by rw [docId_eq_of_keyOf_eq h2, sha_eq_of_keyOf_eq h1]; exact hest.2⟩
    · exact ⟨by rw [docId_eq_of_keyOf_eq h1, sha_eq_of_keyOf_eq h2]; exact hest.2,
        by rw [docId_eq_of_keyOf_eq h2, sha_eq_of_keyOf_eq h1]; exact hest.1⟩
  · left
    have huA : getMatch (processHit score s c st) a.docId b.sha256 =
        getMatch st a.docId b.sha256 := by
      apply getMatch_processHit_untouched
      · rintro ⟨hia, hkb⟩
        exact hsame (Or.inl ⟨keyOf_eq_of_docId_eq store hid hpa hks hia,
          keyOf_eq_of_sha_eq store hsha hpb hkc hkb⟩)
      · rintro ⟨hia, hkb⟩
        exact hsame (Or.inr ⟨keyOf_eq_of_docId_eq store hid hpa hkc hia,
          keyOf_eq_of_sha_eq store hsha hpb hks hkb⟩)
    have huB : getMatch (processHit score s c st) b.docId a.sha256 =
        getMatch st b.docId a.sha256 := by
      apply getMatch_processHit_untouched
      · rintro ⟨hib, hka⟩
        exact hsame (Or.inr ⟨keyOf_eq_of_sha_eq store hsha hpa hkc hka,
          keyOf_eq_of_docId_eq store hid hpb hks hib⟩)
      · rintro ⟨hib, hka⟩
        exact hsame (Or.inl ⟨keyOf_eq_of_sha_eq store hsha hpa hks hka,
          keyOf_eq_of_docId_eq store hid hpb hkc hib⟩)
    exact ⟨huA.trans hw.1, huB.trans hw.2⟩

theorem runHits_inv (store : List Doc)
    (hid : (store.map Doc.docId).Nodup) (hsha : (store.map Doc.sha256).Nodup)
    (score : String → String → Nat) (Q : Doc × Doc → Nat → Prop)
    (HQ : ∀ (a b s' c' : Doc), keyOf a ∈ sig store → keyOf b ∈ sig store →
      keyOf s' ∈ sig store → keyOf c' ∈ sig store → sameUnordered (a, b) (s', c') →
      Q (a, b) (score s'.ssdeep.ssdeep_hash c'.ssdeep.ssdeep_hash))
    (s : Doc) (hks : keyOf s ∈ sig store) :
    ∀ (cands : List Doc) (st : List Doc), sig st = sig store →
      (∀ c ∈ cands, keyOf c ∈ sig store) →
      ((∀ p : Doc × Doc, keyOf p.1 ∈ sig store → keyOf p.2 ∈ sig store →
        TraceInv st Q p → TraceInv (runHits score s cands st) Q p)
      ∧ (∀ c ∈ cands, TraceInv (runHits score s cands st) Q (s, c))) := by
  intro cands
  induction cands with
  | nil =>
    intro st hsig hc
    exact ⟨fun p _ _ h => h, by simp⟩
  | cons c rest ih =>
    intro st hsig hc
    have hkc : keyOf c ∈ sig store := hc c (List.mem_cons_self c rest)
    have hsig' : sig (processHit score s c st) = sig store := by
      rw [sig_processHit]; exact hsig
    have ihs := ih (processHit score s c st) hsig'
      (fun c' h => hc c' (List.mem_cons_of_mem _ h))
    have hone : ∀ p : Doc × Doc, keyOf p.1 ∈ sig store → keyOf p.2 ∈ sig store →
        TraceInv st Q p → TraceInv (processHit score s c st) Q p := by
      intro p hpa hpb hp
      obtain ⟨w, hw, hq⟩ := hp
      rcases processHit_preserves store hid hsha score s c st hsig hks hkc
        p.1 p.2 hpa hpb w hw with h | ⟨hsm, hp2⟩
      · exact ⟨w, h, hq⟩
      · exact ⟨_, hp2, HQ p.1 p.2 s c hpa hpb hks hkc hsm⟩
    constructor
    · intro p hpa hpb hp
      simp only [runHits]
      exact ihs.1 p hpa hpb (hone p hpa hpb hp)
    · intro c' hc'
      rcases List.mem_cons.1 hc' with rfl | hmem
      · simp only [runHits]
        refine ihs.1 (s, c') hks hkc ?_
        have hs' : hasId st s.docId := hasId_of_keyOf_mem_sig st s (by rw [hsig]; exact hks)
        have hc2 : hasId st c'.docId := hasId_of_keyOf_mem_sig st c' (by rw [hsig]; exact hkc)
        have hest := processHit_establishes score s c' st hs' hc2
        exact ⟨_, ⟨hest.1, hest.2⟩, HQ s c' s c' hks hkc hks hkc (Or.inl ⟨rfl, rfl⟩)⟩
      · simp only [runHits]
        exact ihs.2 c' hmem

theorem processSample_inv (store : List Doc)
    (hid : (store.map Doc.docId).Nodup) (hsha : (store.map Doc.sha256).Nodup)
    (score : String → String → Nat) (Q : Doc × Doc → Nat → Prop)
    (HQ : ∀ (a b s' c' : Doc), keyOf a ∈ sig store → keyOf b ∈ sig store →
      keyOf s' ∈ sig store → keyOf c' ∈ sig store → sameUnordered (a, b) (s', c') →
      Q (a, b) (score s'.ssdeep.ssdeep_hash c'.ssdeep.ssdeep_hash))
    (size : Nat) (s : Doc) (hks : keyOf s ∈ sig store)
    (st : List Doc) (hsig : sig st = sig store) :
    ((∀ p : Doc × Doc, keyOf p.1 ∈ sig store → keyOf p.2 ∈ sig store →
      TraceInv st Q p → TraceInv (processSample score size s st).1 Q p)
    ∧ (∀ p ∈ (processSample score size s st).2,
        keyOf p.1 ∈ sig store ∧ keyOf p.2 ∈ sig store ∧
        TraceInv (processSample score size s st).1 Q p)) := by
  have hcands : ∀ c ∈ scannedCandidates (chunkPages size (st.filter (optiFilter s))),
      keyOf c ∈ sig store := by
    intro c hc
    have := (mem_of_mem_scannedCandidates s size st c hc).1
    rw [← hsig]
    exact keyOf_mem_sig_of_mem this
  have hrh := runHits_inv store hid hsha score Q HQ s hks
    (scannedCandidates (chunkPages size (st.filter (optiFilter s)))) st hsig hcands
  constructor
  · intro p hpa hpb hp
    simp only [processSample]
    obtain ⟨v, hv1, hv2⟩ := hrh.1 p hpa hpb hp
    exact ⟨v, (PairHolds_setAnalyzed _ _ _ _).2 hv1, hv2⟩
  · intro p hp
    simp only [processSample] at hp
    obtain ⟨c, hc, rfl⟩ := List.mem_map.1 hp
    refine ⟨hks, hcands c hc, ?_⟩
    simp only [processSample]
    obtain ⟨v, hv1, hv2⟩ := hrh.2 c hc
    exact ⟨v, (PairHolds_setAnalyzed _ _ _ _).2 hv1, hv2⟩

theorem runSamples_inv (store : List Doc)
    (hid : (store.map Doc.docId).Nodup) (hsha : (store.map Doc.sha256).Nodup)
    (score : String → String → Nat) (Q : Doc × Doc → Nat → Prop)
    (HQ : ∀ (a b s' c' : Doc), keyOf a ∈ sig store → keyOf b ∈ sig store →
      keyOf s' ∈ sig store → keyOf c' ∈ sig store → sameUnordered (a, b) (s', c') →
      Q (a, b) (score s'.ssdeep.ssdeep_hash c'.ssdeep.ssdeep_hash))
    (size : Nat) :
    ∀ (samples : List Doc) (st : List Doc), sig st = sig store →
      (∀ s ∈ samples, keyOf s ∈ sig store) →
      ((∀ p : Doc × Doc, keyOf p.1 ∈ sig store → keyOf p.2 ∈ sig store →
        TraceInv st Q p → TraceInv (runSamples score size samples st).1 Q p)
      ∧ (∀ p ∈ (runSamples score size samples st).2,
          TraceInv (runSamples score size samples st).1 Q p)) := by
  intro samples
  induction samples with
  | nil =>
    intro st hsig hs
    exact ⟨fun p _ _ h => h, by simp [runSamples]⟩
  | cons s rest ih =>
    intro st hsig hs
    have hks : keyOf s ∈ sig store := hs s (List.mem_cons_self s rest)
    have hps := processSample_inv store hid hsha score Q HQ size s hks st hsig
    have hsig' : sig (processSample score size s st).1 = sig store := by
      rw [sig_processSample]; exact hsig
    have ihs := ih (processSample score size s st).1 hsig'
      (fun s' h => hs s' (List.mem_cons_of_mem _ h))
    constructor
    · intro p hpa hpb hp
      simp only [runSamples]
      exact ihs.1 p hpa hpb (hps.1 p hpa hpb hp)
    · intro p hp
      simp only [runSamples] at hp ⊢
      rcases List.mem_append.1 hp with h | h
      · obtain ⟨hpa, hpb, hinv⟩ := hps.2 p h
        exact ihs.1 p hpa hpb hinv
      · exact ihs.2 p h

theorem records_list_subset (size : Nat) (store : List Doc) :
    ∀ s ∈ (chunkPages size (store.filter (fun d => d.ssdeep.analyzed == false))).flatten,
      s ∈ store := by
  intro s h
  rw [chunkPages_flatten] at h
  exact List.mem_of_mem_filter h

/-- Claim C2: after `compare()` completes (all store operations modelled as
succeeding), the match relation is symmetric: for every pair `(A, B)` that was
scored, `A.matches[B]` and `B.matches[A]` are both present and hold the
identical score value.  Assumes the store keys documents uniquely (`_id`s are
distinct) and samples are identified uniquely (`SHA256`s are distinct). -/
theorem ssdeep_compare_symmetric (score : String → String → Nat) (size : Nat)
    (store : List Doc)
    (hid : (store.map Doc.docId).Nodup) (hsha : (store.map Doc.sha256).Nodup) :
    ∀ p ∈ (ssdeep_compare (some score) size store).2, ∃ v,
      getMatch (ssdeep_compare (some score) size store).1 p.1.docId p.2.sha256 = some v ∧
      getMatch (ssdeep_compare (some score) size store).1 p.2.docId p.1.sha256 = some v := by
  intro p hp
  simp only [ssdeep_compare] at hp ⊢
  have h := (runSamples_inv store hid hsha score (fun _ _ => True)
    (fun _ _ _ _ _ _ _ _ _ => trivial) size
    ((chunkPages size (store.filter (fun d => d.ssdeep.analyzed == false))).flatten)
    store rfl
    (fun s hs => keyOf_mem_sig_of_mem (records_list_subset size store s hs))).2 p hp
  obtain ⟨v, hv, _⟩ := h
  exact ⟨v, hv.1, hv.2⟩

/-- Witness for C2: a concrete two-document store, one comparator invocation;
the hypotheses hold and the theorem applies. -/
theorem ssdeep_compare_symmetric_witness :
    ((storePair.map Doc.docId).Nodup ∧ (storePair.map Doc.sha256).Nodup) ∧
    (∀ p ∈ (ssdeep_compare (some (fun _ _ => 57)) 1000 storePair).2, ∃ v,
      getMatch (ssdeep_compare (some (fun _ _ => 57)) 1000 storePair).1
        p.1.docId p.2.sha256 = some v ∧
      getMatch (ssdeep_compare (some (fun _ _ => 57)) 1000 storePair).1
        p.2.docId p.1.sha256 = some v) :=
  ⟨⟨by decide, by decide⟩,
    ssdeep_compare_symmetric (fun _ _ => 57) 1000 storePair (by decide) (by decide)⟩

/-- Claim C8: a comparator result of 0 for a scored pair is still written on
both sides: the match entry is present with value 0 (distinct from an absent
key).  The comparator is assumed symmetric, as `ssdeep.compare` is. -/
theorem ssdeep_compare_zero_recorded (score : String → String → Nat) (size : Nat)
    (store : List Doc)
    (hid : (store.map Doc.docId).Nodup) (hsha : (store.map Doc.sha256).Nodup)
    (hsym : ∀ x y, score x y = score y x) :
    ∀ p ∈ (ssdeep_compare (some score) size store).2,
      score p.1.ssdeep.ssdeep_hash p.2.ssdeep.ssdeep_hash = 0 →
      getMatch (ssdeep_compare (some score) size store).1 p.1.docId p.2.sha256 = some 0 ∧
      getMatch (ssdeep_compare (some score) size store).1 p.2.docId p.1.sha256 = some 0 := by
  intro p hp h0
  simp only [ssdeep_compare] at hp ⊢
  have HQ : ∀ (a b s' c' : Doc), keyOf a ∈ sig store → keyOf b ∈ sig store →
      keyOf s' ∈ sig store → keyOf c' ∈ sig store → sameUnordered (a, b) (s', c') →
      (fun (q : Doc × Doc) (v : Nat) =>
        v = score q.1.ssdeep.ssdeep_hash q.2.ssdeep.ssdeep_hash) (a, b)
        (score s'.ssdeep.ssdeep_hash c'.ssdeep.ssdeep_hash) := by
    intro a b s' c' _ _ _ _ hsm
    rcases hsm with ⟨h1, h2⟩ | ⟨h1, h2⟩
    · have e1 : a.ssdeep.ssdeep_hash = s'.ssdeep.ssdeep_hash := hash_eq_of_keyOf_eq h1
      have e2 : b.ssdeep.ssdeep_hash = c'.ssdeep.ssdeep_hash := hash_eq_of_keyOf_eq h2
      rw [e1, e2]
    · have e1 : a.ssdeep.ssdeep_hash = c'.ssdeep.ssdeep_hash := hash_eq_of_keyOf_eq h1
      have e2 : b.ssdeep.ssdeep_hash = s'.ssdeep.ssdeep_hash := hash_eq_of_keyOf_eq h2
      rw [e1, e2]
      exact (hsym _ _).symm
  have h := (runSamples_inv store hid hsha score
    (fun q v => v = score q.1.ssdeep.ssdeep_hash q.2.ssdeep.ssdeep_hash) HQ size
    ((chunkPages size (store.filter (fun d => d.ssdeep.analyzed == false))).flatten)
    store rfl
    (fun s hs => keyOf_mem_sig_of_mem (records_list_subset size store s hs))).2 p hp
  obtain ⟨v, hv, hq⟩ := h
  rw [h0] at hq
  rw [hq] at hv
  exact ⟨hv.1, hv.2⟩

/-- Witness for C8: with the constant-zero comparator, the single scored pair
of `storePair` ends with value-0 entries on both sides. -/
theorem ssdeep_compare_zero_recorded_witness :
    ((storePair.map Doc.docId).Nodup ∧ (storePair.map Doc.sha256).Nodup ∧
      (docA, docB) ∈ (ssdeep_compare (some (fun _ _ => 0)) 1000 storePair).2) ∧
    (getMatch (ssdeep_compare (some (fun _ _ => 0)) 1000 storePair).1
        docA.docId docB.sha256 = some 0 ∧
      getMatch (ssdeep_compare (some (fun _ _ => 0)) 1000 storePair).1
        docB.docId docA.sha256 = some 0) :=
  ⟨⟨by decide, by decide, by decide⟩,
    ssdeep_compare_zero_recorded (fun _ _ => 0) 1000 storePair (by decide) (by decide)
      (fun _ _ => rfl) (docA, docB) (by decide) rfl⟩

/-- Claim C6: when the ssdeep module is unavailable (`ssdeep is None`),
`ssdeep_compare` logs and returns before issuing any store operation: the
store is unchanged and no comparator invocation occurs. -/
theorem ssdeep_compare_no_ssdeep (size : Nat) (store : List Doc) :
    ssdeep_compare none size store = (store, []) := rfl

/-- Claim C7: the comparator is never invoked on a pair of samples whose
chunk sizes differ by more than a factor of 2, because the blocking query
restricts candidates to `chunksize ∈ {cs, cs / 2, cs * 2}` (the store is
modelled as honouring the filter). -/
theorem ssdeep_compare_blocking_sound (score : String → String → Nat) (size : Nat)
    (store : List Doc) :
    ∀ p ∈ (ssdeep_compare (some score) size store).2,
      p.2.ssdeep.chunksize ≤ 2 * p.1.ssdeep.chunksize ∧
      p.1.ssdeep.chunksize ≤ 2 * p.2.ssdeep.chunksize := by
  intro p hp
  simp only [ssdeep_compare] at hp
  have h := (mem_trace_runSamples score size _ store p hp).2.1
  unfold optiFilter at h
  simp only [Bool.and_eq_true, Bool.or_eq_true, beq_iff_eq] at h
  obtain ⟨⟨hcs, _⟩, _⟩ := h
  rcases hcs with (h | h) | h <;> omega

/-- Witness for C7 at a concrete invocation: `docA` has chunk size 3, its one
candidate `docB` has chunk size 6. -/
theorem ssdeep_compare_blocking_sound_witness :
    ((docA, docB) ∈ (ssdeep_compare (some (fun _ _ => 57)) 1000 storePair).2) ∧
    (docB.ssdeep.chunksize ≤ 2 * docA.ssdeep.chunksize ∧
      docA.ssdeep.chunksize ≤ 2 * docB.ssdeep.chunksize) :=
  ⟨by decide,
    ssdeep_compare_blocking_sound (fun _ _ => 57) 1000 storePair (docA, docB) (by decide)⟩

/-- Claim C1 is REFUTED by the code (scroll advance inside the per-hit loop):
on `storeSkip` the blocking query for the single unanalyzed sample `docS`
returns the three candidates `docC1, docC2, docC3`; with two scroll pages
(page size 2) the run invokes the comparator only on the first page's
candidates, writes no match entry for `docC3`, and still marks every sample
analyzed — so a candidate returned by the store was skipped before `docS` was
marked analyzed. -/
theorem ssdeep_compare_skips_second_page :
    storeSkip.filter (optiFilter docS) = [docC1, docC2, docC3] ∧
    (chunkPages 2 (storeSkip.filter (optiFilter docS))).length = 2 ∧
    (ssdeep_compare (some (fun _ _ => 40)) 2 storeSkip).2 =
      [(docS, docC1), (docS, docC2)] ∧
    getMatch (ssdeep_compare (some (fun _ _ => 40)) 2 storeSkip).1
      docS.docId docC3.sha256 = none ∧
    (∀ d ∈ (ssdeep_compare (some (fun _ _ => 40)) 2 storeSkip).1,
      d.ssdeep.analyzed = true) :=
  ⟨by decide, by decide, by decide, by decide, by decide⟩

/- ### The analyzed flag after a completed run -/

/-- Every document of an updated store is the image of a document of the old
store under the per-document update function. -/
theorem mem_modifyDoc {st : List Doc} {j : String} {f : SSDeepMeta → SSDeepMeta} {d' : Doc}
    (h : d' ∈ modifyDoc st j f) :
    ∃ d ∈ st, d' = if d.docId = j then { d with ssdeep := f d.ssdeep } else d := by
  obtain ⟨d, hd, he⟩ := List.mem_map.1 h
  exact ⟨d, hd, he.symm⟩

/-- A match write changes neither `analyzed` nor `_id` of any document. -/
theorem analyzed_updateMatches {st : List Doc} {j k : String} {v : Nat} {d' : Doc}
    (h : d' ∈ updateMatches st j k v) :
    ∃ d ∈ st, d'.ssdeep.analyzed = d.ssdeep.analyzed ∧ d'.docId = d.docId := by
  obtain ⟨d, hd, he⟩ := mem_modifyDoc h
  refine ⟨d, hd, ?_⟩
  rw [he]
  by_cases hj : d.docId = j <;> simp [hj]

theorem analyzed_processHit {score : String → String → Nat} {s c : Doc} {st : List Doc}
    {d' : Doc} (h : d' ∈ processHit score s c st) :
    ∃ d ∈ st, d'.ssdeep.analyzed = d.ssdeep.analyzed ∧ d'.docId = d.docId := by
  simp only [processHit] at h
  obtain ⟨d1, hd1, h1, h2⟩ := analyzed_updateMatches h
  obtain ⟨d, hd, h3, h4⟩ := analyzed_updateMatches hd1
  exact ⟨d, hd, h1.trans h3, h2.trans h4⟩

theorem analyzed_runHits (score : String → String → Nat) (s : Doc) :
    ∀ (cands : List Doc) (st : List Doc) (d' : Doc), d' ∈ runHits score s cands st →
      ∃ d ∈ st, d'.ssdeep.analyzed = d.ssdeep.analyzed ∧ d'.docId = d.docId := by
  intro cands
  induction cands with
  | nil => intro st d' h; exact ⟨d', h, rfl, rfl⟩
  | cons c rest ih =>
    intro st d' h
    simp only [runHits] at h
    obtain ⟨d1, hd1, h1, h2⟩ := ih (processHit score s c st) d' h
    obtain ⟨d, hd, h3, h4⟩ := analyzed_processHit hd1
    exact ⟨d, hd, h1.trans h3, h2.trans h4⟩

/-- After processing sample `s`, a document either carries `s`'s `_id` and is
marked analyzed, or kept the analyzed flag it had before. -/
theorem analyzed_processSample (score : String → String → Nat) (size : Nat) (s : Doc)
    (st : List Doc) (d' : Doc) (h : d' ∈ (processSample score size s st).1) :
    ∃ d ∈ st, d'.docId = d.docId ∧
      ((d.docId = s.docId ∧ d'.ssdeep.analyzed = true) ∨
        (d.docId ≠ s.docId ∧ d'.ssdeep.analyzed = d.ssdeep.analyzed)) := by
  simp only [processSample] at h
  obtain ⟨d2, hd2, he⟩ := mem_modifyDoc h
  obtain ⟨d, hd, h3, h4⟩ := analyzed_runHits score s _ st d2 hd2
  by_cases hj : d2.docId = s.docId
  · refine ⟨d, hd, ?_, Or.inl ⟨h4.symm.trans hj, ?_⟩⟩
    · rw [he]
      simp only [if_pos hj]
      simpa using h4
    · rw [he]
      simp only [if_pos hj]
  · refine ⟨d, hd, ?_, Or.inr ⟨fun hc => hj (h4.trans hc), ?_⟩⟩
    · rw [he]
      simp only [if_neg hj]
      exact h4
    · rw [he]
      simp only [if_neg hj]
      exact h3

theorem analyzed_runSamples (score : String → String → Nat) (size : Nat) :
    ∀ (samples : List Doc) (st : List Doc),
      (∀ d ∈ st, d.ssdeep.analyzed = true ∨ d.docId ∈ samples.map Doc.docId) →
      ∀ d' ∈ (runSamples score size samples st).1, d'.ssdeep.analyzed = true := by
  intro samples
  induction samples with
  | nil =>
    intro st hst d' hd'
    simp only [runSamples] at hd'
    rcases hst d' hd' with h | h
    · exact h
    · simp at h
  | cons s rest ih =>
    intro st hst d' hd'
    simp only [runSamples] at hd'
    refine ih (processSample score size s st).1 ?_ d' hd'
    intro d2 hd2
    obtain ⟨d, hd, hide, hcase⟩ := analyzed_processSample score size s st d2 hd2
    rcases hcase with ⟨_, h⟩ | ⟨hne, h⟩
    · exact Or.inl h
    · rcases hst d hd with ha | ha
      · exact Or.inl (h.trans ha)
      · simp only [List.map_cons, List.mem_cons] at ha
        rcases ha with ha | ha
        · exact absurd ha hne
        · right
          rw [hide]
          exact ha

/-- After a completed `compare()` run, every document of the store is marked
analyzed: unanalyzed documents were all in the snapshot `records_list` and
each got flagged; analyzed documents are never unflagged. -/
theorem ssdeep_compare_all_analyzed (score : String → String → Nat) (size : Nat)
    (store : List Doc) :
    ∀ d ∈ (ssdeep_compare (some score) size store).1, d.ssdeep.analyzed = true := by
  simp only [ssdeep_compare]
  apply analyzed_runSamples
  intro d hd
  by_cases ha : d.ssdeep.analyzed = true
  · exact Or.inl ha
  · right
    have hmem : d ∈ store.filter (fun d => d.ssdeep.analyzed == false) := by
      rw [List.mem_filter]
      exact ⟨hd, by simp [Bool.not_eq_true] at ha; simp [ha]⟩
    rw [chunkPages_flatten]
    exact List.mem_map.2 ⟨d, hmem, rfl⟩

/-- Claim C3: a second `compare()` run right after a completed one, with no
new data added, performs zero comparator invocations and zero writes: the
initial query selects only `analyzed == false` samples and the completed run
marked every sample, so the rerun's snapshot is empty and the store is
returned unchanged. -/
theorem ssdeep_compare_idempotent (score : String → String → Nat) (size : Nat)
    (store : List Doc) :
    ssdeep_compare (some score) size (ssdeep_compare (some score) size store).1 =
      ((ssdeep_compare (some score) size store).1, []) := by
  have hall := ssdeep_compare_all_analyzed score size store
  have hfilter : (ssdeep_compare (some score) size store).1.filter
      (fun d => d.ssdeep.analyzed == false) = [] := by
    rw [List.filter_eq_nil_iff]
    intro d hd
    simp [hall d hd]
  conv_lhs => rw [ssdeep_compare]
  rw [hfilter]
  rfl

/- ### Self-exclusion -/

/-- The `must_not` clause of the blocking query: a candidate never carries the
new sample's `SHA256`. -/
theorem optiFilter_sha_ne {s d : Doc} (h : optiFilter s d = true) :
    d.sha256 ≠ s.sha256 := by
  unfold optiFilter at h
  simp only [Bool.and_eq_true, bne_iff_ne] at h
  exact h.2

theorem NoSelf_updateMatches (st : List Doc) (j k : String) (v : Nat)
    (hk : ∀ d ∈ st, d.docId = j → d.sha256 ≠ k) (h : NoSelf st) :
    NoSelf (updateMatches st j k v) := by
  intro d' hd'
  obtain ⟨d, hd, he⟩ := mem_modifyDoc hd'
  by_cases hj : d.docId = j
  · rw [he]
    simp only [if_pos hj]
    have : dictGet (dictInsert d.ssdeep.«matches» k v) d.sha256 =
        dictGet d.ssdeep.«matches» d.sha256 :=
      dictGet_insert_ne _ _ _ _ (hk d hd hj)
    simpa [this] using h d hd
  · rw [he]
    simp only [if_neg hj]
    exact h d hd

theorem NoSelf_setAnalyzed (st : List Doc) (j : String) (h : NoSelf st) :
    NoSelf (setAnalyzed st j) := by
  intro d' hd'
  obtain ⟨d, hd, he⟩ := mem_modifyDoc hd'
  rw [he]
  by_cases hj : d.docId = j
  · simp only [if_pos hj]
    simpa using h d hd
  · simp only [if_neg hj]
    exact h d hd

/-- One candidate-loop body preserves "no self match entry": both writes
target a document whose `SHA256` differs from the written key (`docId`s are
unique, and the blocking query excluded the sample's own `SHA256`). -/
theorem NoSelf_processHit (store : List Doc) (hid : (store.map Doc.docId).Nodup)
    (score : String → String → Nat) (s c : Doc) (st : List Doc)
    (hsig : sig st = sig store)
    (hks : keyOf s ∈ sig store) (hkc : keyOf c ∈ sig store)
    (hne : c.sha256 ≠ s.sha256) (h : NoSelf st) :
    NoSelf (processHit score s c st) := by
  simp only [processHit]
  apply NoSelf_updateMatches
  · intro d hd hdj
    have hkd : keyOf d ∈ sig store := by
      rw [← hsig, ← sig_updateMatches st s.docId c.sha256
        (score s.ssdeep.ssdeep_hash c.ssdeep.ssdeep_hash)]
      exact keyOf_mem_sig_of_mem hd
    have he : d.sha256 = c.sha256 :=
      sha_eq_of_keyOf_eq (keyOf_eq_of_docId_eq store hid hkd hkc hdj)
    rw [he]
    exact hne
  · apply NoSelf_updateMatches
    · intro d hd hdj
      have hkd : keyOf d ∈ sig store := by
        rw [← hsig]
        exact keyOf_mem_sig_of_mem hd
      have he : d.sha256 = s.sha256 :=
        sha_eq_of_keyOf_eq (keyOf_eq_of_docId_eq store hid hkd hks hdj)
      rw [he]
      exact Ne.symm hne
    · exact h

theorem NoSelf_runHits (store : List Doc) (hid : (store.map Doc.docId).Nodup)
    (score : String → String → Nat) (s : Doc) (hks : keyOf s ∈ sig store) :
    ∀ (cands : List Doc) (st : List Doc), sig st = sig store →
      (∀ c ∈ cands, keyOf c ∈ sig store ∧ c.sha256 ≠ s.sha256) →
      NoSelf st → NoSelf (runHits score s cands st) := by
  intro cands
  induction cands with
  | nil => intro st _ _ h; exact h
  | cons c rest ih =>
    intro st hsig hc h
    simp only [runHits]
    have hc0 := hc c (List.mem_cons_self c rest)
    refine ih (processHit score s c st) ?_ (fun c' h' => hc c' (List.mem_cons_of_mem _ h')) ?_
    · rw [sig_processHit]
      exact hsig
    · exact NoSelf_processHit store hid score s c st hsig hks hc0.1 hc0.2 h

theorem NoSelf_processSample (store : List Doc) (hid : (store.map Doc.docId).Nodup)
    (score : String → String → Nat) (size : Nat) (s : Doc) (hks : keyOf s ∈ sig store)
    (st : List Doc) (hsig : sig st = sig store) (h : NoSelf st) :
    NoSelf (processSample score size s st).1 := by
  simp only [processSample]
  apply NoSelf_setAnalyzed
  refine NoSelf_runHits store hid score s hks _ st hsig ?_ h
  intro c hc
  obtain ⟨hcst, hcf⟩ := mem_of_mem_scannedCandidates s size st c hc
  exact ⟨by rw [← hsig]; exact keyOf_mem_sig_of_mem hcst, optiFilter_sha_ne hcf⟩

theorem NoSelf_runSamples (store : List Doc) (hid : (store.map Doc.docId).Nodup)
    (score : String → String → Nat) (size : Nat) :
    ∀ (samples : List Doc) (st : List Doc), sig st = sig store →
      (∀ s ∈ samples, keyOf s ∈ sig store) →
      NoSelf st → NoSelf (runSamples score size samples st).1 := by
  intro samples
  induction samples with
  | nil => intro st _ _ h; exact h
  | cons s rest ih =>
    intro st hsig hs h
    simp only [runSamples]
    refine ih (processSample score size s st).1 ?_
      (fun s' h' => hs s' (List.mem_cons_of_mem _ h')) ?_
    · rw [sig_processSample]
      exact hsig
    · exact NoSelf_processSample store hid score size s
        (hs s (List.mem_cons_self s rest)) st hsig h

/-- Claim C9: no sample is ever compared against itself (the blocking query
excludes the sample's own `SHA256`), and — provided no document starts with a
self entry and `_id`s are unique — no document ever lists its own `SHA256` in
its match map after `compare()`. -/
theorem ssdeep_compare_self_exclusion (score : String → String → Nat) (size : Nat)
    (store : List Doc) (hid : (store.map Doc.docId).Nodup)
    (hself : ∀ d ∈ store, dictGet d.ssdeep.«matches» d.sha256 = none) :
    (∀ p ∈ (ssdeep_compare (some score) size store).2, p.1.sha256 ≠ p.2.sha256) ∧
    (∀ d ∈ (ssdeep_compare (some score) size store).1,
      dictGet d.ssdeep.«matches» d.sha256 = none) := by
  constructor
  · intro p hp
    simp only [ssdeep_compare] at hp
    have h := (mem_trace_runSamples score size _ store p hp).2.1
    exact Ne.symm (optiFilter_sha_ne h)
  · intro d hd
    simp only [ssdeep_compare] at hd
    refine NoSelf_runSamples store hid score size _ store rfl
      (fun s hs => keyOf_mem_sig_of_mem (records_list_subset size store s hs))
      hself d hd

/-- Witness for C9 on the concrete two-document store. -/
theorem ssdeep_compare_self_exclusion_witness :
    ((storePair.map Doc.docId).Nodup ∧
      (∀ d ∈ storePair, dictGet d.ssdeep.«matches» d.sha256 = none)) ∧
    ((∀ p ∈ (ssdeep_compare (some (fun _ _ => 57)) 1000 storePair).2,
        p.1.sha256 ≠ p.2.sha256) ∧
      (∀ d ∈ (ssdeep_compare (some (fun _ _ => 57)) 1000 storePair).1,
        dictGet d.ssdeep.«matches» d.sha256 = none)) :=
  ⟨⟨by decide, by decide⟩,
    ssdeep_compare_self_exclusion (fun _ _ => 57) 1000 storePair (by decide) (by decide)⟩

/- ### Grouping -/

/-- The inner group scan never removes anyone: every existing group survives
(possibly extended by the scanned sample). -/
theorem scanGroups_subset (ms : List (String × Nat)) (sha : String) :
    ∀ (groups : List (List String)) (g : List String), g ∈ groups →
      ∃ g' ∈ (scanGroups ms sha groups).1, g ⊆ g' := by
  intro groups
  induction groups with
  | nil => intro g hg; simp at hg
  | cons g0 gs ih =>
    intro g hg
    rcases List.mem_cons.1 hg with rfl | hmem
    · by_cases hin : sha ∈ g
      · exact ⟨g, by simp [scanGroups, hin], fun x hx => hx⟩
      · by_cases hall : g.all (fun m => (dictGet ms m).isSome)
        · refine ⟨g ++ [sha], by simp [scanGroups, hin, hall], fun x hx => ?_⟩
          exact List.mem_append.2 (Or.inl hx)
        · exact ⟨g, by simp [scanGroups, hin, hall], fun x hx => hx⟩
    · obtain ⟨g', hg', hsub⟩ := ih g hmem
      refine ⟨g', ?_, hsub⟩
      by_cases hin : sha ∈ g0
      · simp [scanGroups, hin]
        exact Or.inr hg'
      · by_cases hall : g0.all (fun m => (dictGet ms m).isSome) <;>
          simp [scanGroups, hin, hall] <;> exact Or.inr hg'

/-- If the scan reports `in_group = true`, the sample is a member of some
group afterwards. -/
theorem scanGroups_true_mem (ms : List (String × Nat)) (sha : String) :
    ∀ (groups : List (List String)), (scanGroups ms sha groups).2 = true →
      ∃ g ∈ (scanGroups ms sha groups).1, sha ∈ g := by
  intro groups
  induction groups with
  | nil => intro h; simp [scanGroups] at h
  | cons g0 gs ih =>
    intro h
    by_cases hin : sha ∈ g0
    · exact ⟨g0, by simp [scanGroups, hin], hin⟩
    · by_cases hall : g0.all (fun m => (dictGet ms m).isSome)
      · exact ⟨g0 ++ [sha], by simp [scanGroups, hin, hall],
          List.mem_append.2 (Or.inr (List.mem_singleton.2 rfl))⟩
      · simp only [scanGroups, if_neg hin, if_neg hall] at h ⊢
        obtain ⟨g, hg, hmem⟩ := ih h
        exact ⟨g, by simp; exact Or.inr hg, hmem⟩

/-- Core invariant of the outer grouping loop: a sample already placed stays
placed, and every iterated key gets placed. -/
theorem groupFold_mem (records : List (String × List (String × Nat))) :
    ∀ (recs : List (String × List (String × Nat))) (groups : List (List String))
      (x : String),
      ((∃ g ∈ groups, x ∈ g) ∨ x ∈ recs.map Prod.fst) →
      ∃ g ∈ groupFold records recs groups, x ∈ g := by
  intro recs
  induction recs with
  | nil =>
    intro groups x h
    rcases h with h | h
    · exact h
    · simp at h
  | cons kv rest ih =>
    obtain ⟨sha, ms⟩ := kv
    intro groups x h
    simp only [groupFold]
    set r := scanGroups (recordsMatches records sha) sha groups with hr
    have hkeep : ∀ y, (∃ g ∈ groups, y ∈ g) →
        ∃ g ∈ (if r.2 then r.1 else r.1 ++ [[sha]]), y ∈ g := by
      intro y ⟨g, hg, hy⟩
      obtain ⟨g', hg', hsub⟩ := scanGroups_subset (recordsMatches records sha) sha groups g hg
      by_cases hb : r.2
      · exact ⟨g', by simp [hb]; exact hg', hsub hy⟩
      · exact ⟨g', by simp [hb]; exact Or.inl hg', hsub hy⟩
    rcases h with h | h
    · exact ih _ x (Or.inl (hkeep x h))
    · simp only [List.map_cons, List.mem_cons] at h
      rcases h with rfl | h
      · refine ih _ x (Or.inl ?_)
        by_cases hb : r.2
        · obtain ⟨g, hg, hmem⟩ := scanGroups_true_mem (recordsMatches records x) x groups hb
          exact ⟨g, by simp [hb]; exact hg, hmem⟩
        · exact ⟨[x], by simp [hb], List.mem_singleton.2 rfl⟩
      · exact ih _ x (Or.inr h)

/-- Claim C10: every sample id iterated by `group()` ends up in at least one
group of the returned sequence — an id that joins no existing group starts a
new singleton group, so no input sample is dropped. -/
theorem ssdeep_group_core_covers (records : List (String × List (String × Nat)))
    (sha : String) (h : sha ∈ records.map Prod.fst) :
    ∃ g ∈ ssdeep_group_core records, sha ∈ g :=
  groupFold_mem records records [] sha (Or.inr h)

/-- Witness for C10 on the spec's clustering fixture. -/
theorem ssdeep_group_core_covers_witness :
    ("C" ∈ (groupRecords storeGroupFix).map Prod.fst) ∧
    (∃ g ∈ ssdeep_group_core (groupRecords storeGroupFix), "C" ∈ g) :=
  ⟨by decide, ssdeep_group_core_covers (groupRecords storeGroupFix) "C" (by decide)⟩

/-- Claim C4: on the fixture `{A:{B:1}, B:{A:1,C:1}, C:{B:1}}`, fetched and
iterated in order A, B, C, the first group of the result contains both A and
B (the full result is `[[A, B], [C]]`). -/
theorem ssdeep_group_fixture :
    groupRecords storeGroupFix =
      [("A", [("B", 1)]), ("B", [("A", 1), ("C", 1)]), ("C", [("B", 1)])] ∧
    ssdeep_group storeGroupFix = [["A", "B"], ["C"]] ∧
    "A" ∈ (ssdeep_group storeGroupFix).headD [] ∧
    "B" ∈ (ssdeep_group storeGroupFix).headD [] :=
  ⟨by decide, by decide, by decide, by decide⟩

/-- Claim C5: there is an input on which `group()` appends the same id to more
than one group in a single pass: with records `{X:{Q:1}, Y:{Q:1}, Z:{X:1,Y:1}}`
iterated in order X, Y, Z, the id `Z` is appended both to X's group and to Y's
group, because scanning does not stop after a successful addition. -/
theorem ssdeep_group_duplicate_placement :
    ssdeep_group storeGroupDup = [["X", "Z"], ["Y", "Z"]] ∧
    (ssdeep_group storeGroupDup).countP (fun g => g.contains "Z") = 2 :=
  ⟨by decide, by decide⟩

end Multiscanner
